import Mathlib

/-!
# Verification of the `run_plan` plan executor

A shallow embedding, in Lean 4, of the core of `run_plan.py`: a
dependency-aware action executor.  Plans hold a dictionary of named
actions (each with a state in {PENDING, DONE, FAILED} and a list of
predecessor names) and a dictionary of string variables.

Python dictionaries are modelled as association lists kept in insertion
order; dictionary lookup is `List.find?` on the key.  Python exceptions
are modelled with `Except`, and potentially non-terminating recursion
(`Plan._circular`, `Plan.expand_variables`) is modelled with an explicit
fuel parameter, `none` meaning that the given recursion depth was
exhausted; "the computation diverges" is rendered as "the result is
`none` for every fuel".  External nondeterminism (the random choice of
the next action, user answers, command exit codes) is passed in as
explicit parameters, and the execution loop of `Plan.run` is modelled as
a relation (`Exec`, `Runs`).
-/

set_option autoImplicit false

/-- The three states of an action: `STATES = ["PENDING", "DONE", "FAILED"]`. -/
inductive AState where
  | PENDING
  | DONE
  | FAILED
deriving DecidableEq

/-- An `Action` as far as the core scheduler sees it: its name, its state
and its `after` list (the names of its preconditions).  The kind-specific
payload is passed separately to the kind-specific `run` models below. -/
structure ActionS where
  name : String
  state : AState
  after : List String
deriving DecidableEq

/-- A `Plan`: source file reference, the `_actions` dict and the
`_variables` dict (here `vars`, since `variables` is reserved in Lean),
both as insertion-ordered association lists. -/
structure Plan where
  source_file : String
  actions : List ActionS
  vars : List (String × String)
deriving DecidableEq

deriving instance DecidableEq for Except

/-- Dictionary lookup `self._actions[n]` (first entry with the given name). -/
def lookupAct (p : Plan) (n : String) : Option ActionS :=
  p.actions.find? (fun a => a.name = n)

/-- The state of the action named `n`, when it exists. -/
def stateOf (p : Plan) (n : String) : Option AState :=
  (lookupAct p n).map ActionS.state

/-- Dictionary lookup in a string-keyed association list (used for the
`_variables` dict and for the saved-state documents). -/
def lookupVar {α : Type} (vs : List (String × α)) (n : String) : Option α :=
  (vs.find? (fun x => x.1 = n)).map Prod.snd

/-- `Plan._any_failed`: true if any action is FAILED. -/
def Plan.any_failed (p : Plan) : Bool :=
  p.actions.any (fun a => a.state = AState.FAILED)

/-- `Plan._reset_failed`: reset every FAILED action to PENDING. -/
def Plan.reset_failed (p : Plan) : Plan :=
  { p with actions := p.actions.map (fun a =>
      if a.state = AState.FAILED then { a with state := AState.PENDING } else a) }

/-- `obj.done()` / `obj.fail()` reached through the `_actions` dict: set the
state of the action named `n`. -/
def updateState (p : Plan) (n : String) (s : AState) : Plan :=
  { p with actions := p.actions.map (fun a =>
      if a.name = n then { a with state := s } else a) }

/-- `Plan.set_value`: raise `KeyError` when the name is unknown, otherwise
overwrite the value of the (existing) variable. -/
def Plan.set_value (p : Plan) (n v : String) : Except Unit Plan :=
  if (lookupVar p.vars n).isSome then
    Except.ok { p with vars := p.vars.map (fun x =>
      if x.1 = n then (x.1, v) else x) }
  else Except.error ()

/-- The key-set of a step descriptor handed to `build_action` (only the
presence of each recognized key matters to the dispatch). -/
structure Descr where
  hasName : Bool
  hasCommand : Bool
  hasVariable : Bool
  hasDefault : Bool
  hasText : Bool
  hasPrompt : Bool
deriving DecidableEq

/-- The closed set of action kinds `build_action` can produce. -/
inductive Kind where
  | command
  | set
  | prompt
deriving DecidableEq

/-- `build_action`: infer the kind of an action from the keys present in
its descriptor; `Except.error ()` models raising `UnknownAction`. -/
def build_action (d : Descr) : Except Unit Kind :=
  if d.hasName = false then Except.error () else
  let t1 : Option Kind := if d.hasCommand then some Kind.command else none
  if (d.hasVariable || d.hasDefault) && t1.isSome then Except.error () else
  let t2 : Option Kind := if d.hasVariable || d.hasDefault then some Kind.set else t1
  if (d.hasText || d.hasPrompt) && t2.isSome then Except.error () else
  let t3 : Option Kind := if d.hasText || d.hasPrompt then some Kind.prompt else t2
  match t3 with
  | none => Except.error ()
  | some t => Except.ok t

/-- The number of kinds a descriptor's key-set matches. -/
def kindCount (d : Descr) : Nat :=
  (if d.hasCommand then 1 else 0) +
  (if d.hasVariable || d.hasDefault then 1 else 0) +
  (if d.hasText || d.hasPrompt then 1 else 0)

/-- Python's `str.lower()` (character-wise lowercasing; the answers the
parser compares against are ASCII). -/
def pyLower (s : String) : String := String.mk (s.toList.map Char.toLower)

/-- `parse_response`: lowercase the answer and accept exactly
`t`, `true`, `y`, `yes`. -/
def parse_response (data : String) : Bool :=
  let d := pyLower data
  d = "t" || d = "true" || d = "y" || d = "yes"

/-- The opening placeholder marker searched for by `expand_variables`
(the two characters dollar and open-brace). -/
def openMarker : List Char := ['$', '\x7b']

/-- The closing placeholder marker (the close-brace character). -/
def closeMarker : List Char := ['\x7d']

/-- `hay.index(needle)`: position of the first occurrence of `needle`,
`none` when absent (Python raises `ValueError`). -/
def strIndex (needle : List Char) : List Char → Option Nat
  | [] => if needle.isPrefixOf ([] : List Char) then some 0 else none
  | c :: rest =>
    if needle.isPrefixOf (c :: rest) then some 0
    else (strIndex needle rest).map (· + 1)

/-- `Plan.expand_variables` on string input, with fuel for the unbounded
self-recursion: find the first opening marker, the first closing marker at
or after it, splice in the variable's value (empty when undefined) and
recurse on the result; when either marker is missing (`ValueError`),
return the data as it stands. -/
def expandText (vs : List (String × String)) : Nat → List Char → Option (List Char)
  | 0, _ => none
  | fuel+1, data =>
    match strIndex openMarker data with
    | none => some data
    | some start =>
      match strIndex closeMarker (data.drop start) with
      | none => some data
      | some off =>
        let e := start + off
        let v := (data.drop (start + 2)).take (e - (start + 2))
        let subst := match lookupVar vs (String.mk v) with
          | some s => s.toList
          | none => []
        expandText vs fuel (data.take start ++ subst ++ data.drop (e + 1))

/-- The input to `Plan.expand_variables`: a string, or a non-string value
(on which `.index` raises `AttributeError`). -/
inductive PyData where
  | text (s : List Char)
  | nonText

/-- `Plan.expand_variables` including the `AttributeError` escape: a
non-string input yields the empty string. -/
def expand_variables (vs : List (String × String)) (fuel : Nat) : PyData → Option (List Char)
  | PyData.text s => expandText vs fuel s
  | PyData.nonText => some []

/-- The expansion of `s` under `vs` runs forever: every recursion depth is
exhausted. -/
def expandDiverges (vs : List (String × String)) (s : List Char) : Prop :=
  ∀ fuel, expandText vs fuel s = none

/-- The execution-contract violation `DoubleRun`. -/
inductive RunErr where
  | doubleRun
deriving DecidableEq

/-- `Prompt.run`: `_header` raises `DoubleRun` unless the action is
PENDING; then the text is expanded (and printed), an answer is obtained
(`not fail` under test, else the parsed interactive response, passed here
as `answer`), and the action becomes DONE on yes, FAILED on no. -/
def promptRun (fuel : Nat) (p : Plan) (under_test failFlag answer : Bool)
    (text : String) (a : ActionS) : Option (Except RunErr AState) :=
  if a.state ≠ AState.PENDING then some (Except.error RunErr.doubleRun)
  else match expandText p.vars fuel text.toList with
    | none => none
    | some _ =>
      let ans := if under_test then !failFlag else answer
      some (Except.ok (if ans then AState.DONE else AState.FAILED))

/-- `Set.run`: `_header` raises `DoubleRun` unless the action is PENDING;
then the default is expanded, an override is read unless under test
(`answer`, empty string keeping the default), and `set_value` decides
DONE (known variable, store updated) or FAILED (`KeyError`: unknown
variable, store untouched). -/
def setRun (fuel : Nat) (p : Plan) (under_test : Bool) (answer : String)
    (varName defaultV : String) (a : ActionS) : Option (Except RunErr (AState × Plan)) :=
  if a.state ≠ AState.PENDING then some (Except.error RunErr.doubleRun)
  else match expandText p.vars fuel defaultV.toList with
    | none => none
    | some d =>
      let newValue := if under_test then String.mk d
        else if answer = "" then String.mk d else answer
      match p.set_value varName newValue with
      | Except.ok p2 => some (Except.ok (AState.DONE, p2))
      | Except.error _ => some (Except.ok (AState.FAILED, p))

/-- `Command.run`: raise `DoubleRun` unless the action is PENDING; expand
the command; under `DRYRUN` mark DONE without invoking anything; else DONE
iff the exit status is 0, with `FileNotFoundError` (`exitCode = none`)
giving FAILED. -/
def commandRun (fuel : Nat) (p : Plan) (dryrun : Bool) (exitCode : Option Nat)
    (command : String) (a : ActionS) : Option (Except RunErr AState) :=
  if a.state ≠ AState.PENDING then some (Except.error RunErr.doubleRun)
  else match expandText p.vars fuel command.toList with
    | none => none
    | some _ =>
      if dryrun then some (Except.ok AState.DONE)
      else match exitCode with
        | none => some (Except.ok AState.FAILED)
        | some c => some (Except.ok (if c = 0 then AState.DONE else AState.FAILED))

/-- The inner precondition scan of `Plan.runnable`: look up every
precondition (a missing one raises `KeyError`, modelled as
`Except.error`), and report whether all of them are DONE. -/
def allDone (p : Plan) : List String → Except Unit Bool
  | [] => Except.ok true
  | n :: ns =>
    match lookupAct p n with
    | none => Except.error ()
    | some b =>
      match allDone p ns with
      | Except.error e => Except.error e
      | Except.ok rest => Except.ok (rest && decide (b.state = AState.DONE))

/-- The iteration of `Plan.runnable` over the `_actions` dict: skip
non-PENDING actions, keep a PENDING action iff all its preconditions are
DONE. -/
def runnableAux (p : Plan) : List ActionS → Except Unit (List ActionS)
  | [] => Except.ok []
  | a :: rest =>
    if a.state ≠ AState.PENDING then runnableAux p rest
    else
      match allDone p a.after with
      | Except.error e => Except.error e
      | Except.ok canRun =>
        match runnableAux p rest with
        | Except.error e => Except.error e
        | Except.ok rv => Except.ok (if canRun then a :: rv else rv)

/-- `Plan.runnable`: the list of runnable (eligible) actions. -/
def Plan.runnable (p : Plan) : Except Unit (List ActionS) := runnableAux p p.actions

/-- `Plan._next`: `random.choice` of the runnable list, `none` when it is
empty; the random draw is modelled by an arbitrary index `k` reduced
modulo the length of the list. -/
def Plan.next (p : Plan) (k : Nat) : Except Unit (Option ActionS) :=
  match p.runnable with
  | Except.error e => Except.error e
  | Except.ok acts => Except.ok acts[k % acts.length]?

/-- `Plan._circular start names`, with fuel bounding the total work of
the unbounded recursion: walk every precondition chain from `names`;
finding `start` returns true, a missing name raises `KeyError`
(`some (Except.error ())`), a fully explored forest returns false, and
`none` means the fuel was exhausted.  A terminating Python call returns
`some r` for every large enough fuel (`circularF_mono`); an infinite
recursion yields `none` for every fuel. -/
def circularF : Nat → Plan → String → List String → Option (Except Unit Bool)
  | _, _, _, [] => some (Except.ok false)
  | 0, _, _, _ :: _ => none
  | fuel+1, p, start, n :: rest =>
    if n = start then some (Except.ok true)
    else
      match lookupAct p n with
      | none => some (Except.error ())
      | some b =>
        match circularF fuel p start b.after with
        | none => none
        | some (Except.error e) => some (Except.error e)
        | some (Except.ok true) => some (Except.ok true)
        | some (Except.ok false) => circularF fuel p start rest

/-- The loop of `Plan._well_formed`: check `_circular` for every action;
a `True` or a `KeyError` makes the plan malformed (`some false`); `none`
propagates an exhausted recursion depth. -/
def wellFormedGo (fuel : Nat) (p : Plan) : List ActionS → Option Bool
  | [] => some true
  | a :: rest =>
    match circularF fuel p a.name a.after with
    | none => none
    | some (Except.error _) => some false
    | some (Except.ok true) => some false
    | some (Except.ok false) => wellFormedGo fuel p rest

/-- `Plan._well_formed`, with fuel threaded into `_circular`. -/
def Plan.well_formed (fuel : Nat) (p : Plan) : Option Bool :=
  wellFormedGo fuel p p.actions

/-- A dependency path from `n` back to `start`: `n` is `start` itself, or
`n`'s dict entry has a precondition from which `start` is reachable.
These are exactly the ways `_circular start` can find `start` again. -/
inductive PathTo (p : Plan) (start : String) : String → Prop
  | refl : PathTo p start start
  | step {n m : String} {b : ActionS} : lookupAct p n = some b → m ∈ b.after →
      PathTo p start m → PathTo p start n

/-- A precondition chain from `n` that reaches a name missing from the
`_actions` dict (the source of `KeyError` in `_circular`). -/
inductive ReachesMissing (p : Plan) : String → Prop
  | here {n : String} : lookupAct p n = none → ReachesMissing p n
  | step {n m : String} {b : ActionS} : lookupAct p n = some b → m ∈ b.after →
      ReachesMissing p m → ReachesMissing p n

/-- A structurally bad plan: some action lies on a dependency cycle, or
some action's precondition chain reaches a dangling name. -/
def BadPlan (p : Plan) : Prop :=
  ∃ a ∈ p.actions, (∃ n ∈ a.after, PathTo p a.name n) ∨
    (∃ n ∈ a.after, ReachesMissing p n)

/-- `Plan._well_formed` never returns on `p`: every recursion depth is
exhausted (in Python, `RecursionError` instead of a boolean). -/
def wfDiverges (p : Plan) : Prop := ∀ fuel, Plan.well_formed fuel p = none

/-- One iteration of the loop in `Plan.run`: some runnable action is
chosen and its `run` moves it to DONE or FAILED (`Step` contract), with
the variable store mutated arbitrarily (a `Set` action may overwrite a
variable). -/
inductive ExecStep : Plan → Plan → Prop
  | mk {p : Plan} {acts : List ActionS} {a : ActionS} {s : AState}
      {vs : List (String × String)} :
      p.runnable = Except.ok acts → a ∈ acts →
      (s = AState.DONE ∨ s = AState.FAILED) →
      ExecStep p { updateState p a.name s with vars := vs }

/-- Any number of loop iterations of `Plan.run`. -/
def Exec : Plan → Plan → Prop := Relation.ReflTransGen ExecStep

/-- The observable outcome of `Plan.run`: the structural-error exception
(`IncorrectPlan`), an early stop on `KeyboardInterrupt` (Python returns
False there), or normal completion with `not _any_failed()`. -/
inductive RunResult where
  | malformed
  | interrupted
  | completed (b : Bool)
deriving DecidableEq

/-- `Plan.run` as a relation between the initial plan, the final plan and
the outcome: validate first (raising before anything runs), then reset
FAILED actions and loop until nothing is runnable; on normal termination
return `not _any_failed()`. -/
inductive Runs (fuel : Nat) : Plan → Plan → RunResult → Prop
  | malformed {p : Plan} : Plan.well_formed fuel p = some false →
      Runs fuel p p RunResult.malformed
  | completed {p q : Plan} : Plan.well_formed fuel p = some true →
      Exec p.reset_failed q → q.runnable = Except.ok [] →
      Runs fuel p q (RunResult.completed (!q.any_failed))
  | interrupted {p q : Plan} : Plan.well_formed fuel p = some true →
      Exec p.reset_failed q → Runs fuel p q RunResult.interrupted

/-- A saved state: `Plan._state()` emits the plan source reference, every
action's name and state, and the variable dict. -/
structure StateDoc where
  plan : String
  actions : List (String × AState)
  vars : List (String × String)

/-- `Plan._state`: snapshot the current plan. -/
def Plan.state_doc (p : Plan) : StateDoc :=
  ⟨p.source_file, p.actions.map (fun a => (a.name, a.state)), p.vars⟩

/-- The action loop of `Plan.restore`: look each named action up
(`KeyError` when absent), call `done()` on DONE, `fail()` on FAILED, and
leave any other recorded state alone. -/
def restoreActs (q : Plan) : List (String × AState) → Except Unit Plan
  | [] => Except.ok q
  | (n, s) :: rest =>
    match lookupAct q n with
    | none => Except.error ()
    | some _ =>
      match s with
      | AState.DONE => restoreActs (updateState q n AState.DONE) rest
      | AState.FAILED => restoreActs (updateState q n AState.FAILED) rest
      | AState.PENDING => restoreActs q rest

/-- The variable loop of `Plan.restore`: `set_value` every recorded
variable (`KeyError` when the plan does not define it). -/
def restoreVars (q : Plan) : List (String × String) → Except Unit Plan
  | [] => Except.ok q
  | (n, v) :: rest =>
    match q.set_value n v with
    | Except.error e => Except.error e
    | Except.ok q2 => restoreVars q2 rest

/-- `Plan.restore`: apply a saved state document to a (freshly loaded)
plan. -/
def Plan.restore (q : Plan) (d : StateDoc) : Except Unit Plan :=
  match restoreActs q d.actions with
  | Except.error e => Except.error e
  | Except.ok q1 => restoreVars q1 d.vars

/-- Concrete plan: a dependency cycle `a -> b -> a` that is reachable from
the off-cycle action `c`, with `c` first in dict insertion order. -/
def cyclePlan : Plan :=
  ⟨"plan.yaml",
   [⟨"c", AState.PENDING, ["a"]⟩,
    ⟨"a", AState.PENDING, ["b"]⟩,
    ⟨"b", AState.PENDING, ["a"]⟩], []⟩

/-- Concrete plan: one action, already DONE. -/
def donePlan : Plan := ⟨"plan.yaml", [⟨"solo", AState.DONE, []⟩], []⟩

/-- Concrete plan: `a2` depends on `a1`, both PENDING. -/
def twoPlan : Plan :=
  ⟨"plan.yaml",
   [⟨"a1", AState.PENDING, []⟩, ⟨"a2", AState.PENDING, ["a1"]⟩], []⟩

/-- Concrete plan with no actions and no variables. -/
def emptyPlan : Plan := ⟨"plan.yaml", [], []⟩

/-- Concrete plan defining the single variable `foo`. -/
def fooPlan : Plan := ⟨"plan.yaml", [], [("foo", "")]⟩

/-- Concrete action in the PENDING state. -/
def pendAct : ActionS := ⟨"test", AState.PENDING, []⟩

/-- Concrete action in the DONE state. -/
def doneAct : ActionS := ⟨"test", AState.DONE, []⟩

/-- Concrete mid-run plan to snapshot: one action per state, one
variable. -/
def snapPlan : Plan :=
  ⟨"plan.yaml",
   [⟨"x", AState.DONE, []⟩, ⟨"y", AState.FAILED, ["x"]⟩, ⟨"z", AState.PENDING, ["y"]⟩],
   [("v", "val")]⟩

/-- The same static definition as `snapPlan`, freshly loaded: every action
PENDING, the variable at its initial value. -/
def freshPlan : Plan :=
  ⟨"plan.yaml",
   [⟨"x", AState.PENDING, []⟩, ⟨"y", AState.PENDING, ["x"]⟩, ⟨"z", AState.PENDING, ["y"]⟩],
   [("v", "")]⟩

/-! ## Theorems -/

/-- C8: `build_action` raises the configuration error exactly when the
descriptor lacks a name, matches no kind, or matches more than one kind;
otherwise it builds the single kind inferred from the present keys
(command keys give a Command, variable or default keys give a Set, text
or prompt keys give a Prompt). -/
theorem build_action_dispatch (d : Descr) :
    (build_action d = Except.error () ↔
      (d.hasName = false ∨ kindCount d = 0 ∨ 2 ≤ kindCount d)) ∧
    (d.hasName = true → d.hasCommand = true → kindCount d = 1 →
      build_action d = Except.ok Kind.command) ∧
    (d.hasName = true → (d.hasVariable || d.hasDefault) = true → kindCount d = 1 →
      build_action d = Except.ok Kind.set) ∧
    (d.hasName = true → (d.hasText || d.hasPrompt) = true → kindCount d = 1 →
      build_action d = Except.ok Kind.prompt) := by
  obtain ⟨b1, b2, b3, b4, b5, b6⟩ := d
  cases b1 <;> cases b2 <;> cases b3 <;> cases b4 <;> cases b5 <;> cases b6 <;> decide

/-- Witness for C8 at a concrete descriptor: a command-only descriptor
with a name matches exactly one kind and builds a Command. -/
theorem build_action_dispatch_witness :
    kindCount ⟨true, true, false, false, false, false⟩ = 1 ∧
    build_action ⟨true, true, false, false, false, false⟩ = Except.ok Kind.command :=
  ⟨by decide, (build_action_dispatch ⟨true, true, false, false, false, false⟩).2.1
    (by decide) (by decide) (by decide)⟩

/-- C10: the yes/no parser accepts exactly the lowercased strings `t`,
`true`, `y`, `yes`; whitespace-padded answers, `1` and `ok` are negative,
and a confirmation step fed such an answer ends FAILED. -/
theorem parse_response_spec :
    (∀ s : String, parse_response s = true ↔
      (pyLower s = "t" ∨ pyLower s = "true" ∨ pyLower s = "y" ∨ pyLower s = "yes")) ∧
    parse_response " yes" = false ∧
    parse_response "1" = false ∧
    parse_response "ok" = false ∧
    promptRun 1 emptyPlan false false (parse_response "ok") "Proceed" pendAct =
      some (Except.ok AState.FAILED) := by
  refine ⟨fun s => ?_, by decide, by decide, by decide, by decide⟩
  simp [parse_response, or_assoc]

/-- C5: variable expansion returns placeholder-free input unchanged,
expands a bound placeholder to its value and an unbound one to the empty
string, leaves the text untouched when the opening marker has no matching
closing marker, and yields empty text on non-string input. -/
theorem expand_variables_spec (vs : List (String × String)) (fuel : Nat) (s : List Char) :
    (strIndex openMarker s = none → expandText vs (fuel + 1) s = some s) ∧
    (∀ i, strIndex openMarker s = some i → strIndex closeMarker (s.drop i) = none →
      expandText vs (fuel + 1) s = some s) ∧
    expandText [("x", "bar")] 2 ("$\x7bx\x7d".toList) = some ("bar".toList) ∧
    expandText [] 2 ("$\x7bx\x7d".toList) = some [] ∧
    expand_variables vs fuel PyData.nonText = some [] := by
  refine ⟨fun h => ?_, fun i h1 h2 => ?_, by decide, by decide, rfl⟩
  · simp [expandText, h]
  · simp [expandText, h1, h2]

/-- Witness for C5 at a concrete input: `"text"` has no placeholder and
expands to itself. -/
theorem expand_variables_spec_witness :
    strIndex openMarker ("text".toList) = none ∧
    expandText [] 1 ("text".toList) = some ("text".toList) :=
  ⟨by decide, (expand_variables_spec [] 0 ("text".toList)).1 (by decide)⟩

/-- C9: `expand_variables` has no substitution-depth or cycle guard: with
the variable `x` bound to the placeholder for `x` itself, expanding that
placeholder never terminates. -/
theorem expand_no_cycle_guard :
    expandDiverges [("x", "$\x7bx\x7d")] ("$\x7bx\x7d".toList) := by
  intro fuel
  induction fuel with
  | zero => rfl
  | succ n ih => exact ih

/-- C6: running any non-PENDING step — whatever its kind — raises the
`DoubleRun` contract violation (and, the error being raised before any
transition, the step's state is unchanged: the model returns no new
state). -/
theorem double_run_rejected (fuel : Nat) (p : Plan)
    (under_test failFlag answer dryrun : Bool) (sAnswer : String)
    (exitCode : Option Nat) (text varName defaultV command : String) (a : ActionS)
    (h : a.state = AState.DONE ∨ a.state = AState.FAILED) :
    promptRun fuel p under_test failFlag answer text a =
      some (Except.error RunErr.doubleRun) ∧
    setRun fuel p under_test sAnswer varName defaultV a =
      some (Except.error RunErr.doubleRun) ∧
    commandRun fuel p dryrun exitCode command a =
      some (Except.error RunErr.doubleRun) := by
  have hne : a.state ≠ AState.PENDING := by
    rcases h with h | h <;> simp [h]
  refine ⟨?_, ?_, ?_⟩ <;> simp [promptRun, setRun, commandRun, hne]

/-- Witness for C6 at a concrete DONE action: all three kinds raise
`DoubleRun`. -/
theorem double_run_rejected_witness :
    (doneAct.state = AState.DONE ∨ doneAct.state = AState.FAILED) ∧
    (promptRun 1 emptyPlan true false false "t" doneAct =
        some (Except.error RunErr.doubleRun) ∧
      setRun 1 emptyPlan true "" "v" "d" doneAct =
        some (Except.error RunErr.doubleRun) ∧
      commandRun 1 emptyPlan false (some 0) "true" doneAct =
        some (Except.error RunErr.doubleRun)) :=
  ⟨Or.inl rfl,
   double_run_rejected 1 emptyPlan true false false false "" (some 0) "t" "v" "d" "true"
     doneAct (Or.inl rfl)⟩

/-- C7: a variable-assignment step run under test ends DONE exactly when
the target name exists in the variable store; on an unknown name it ends
FAILED with the plan (and so the store) unchanged — the assignment never
creates the variable. -/
theorem set_assignment_spec (fuel : Nat) (p : Plan) (answer : String)
    (varName defaultV : String) (a : ActionS) (d : List Char)
    (hp : a.state = AState.PENDING)
    (hd : expandText p.vars fuel defaultV.toList = some d) :
    ((lookupVar p.vars varName).isSome ↔
      setRun fuel p true answer varName defaultV a =
        some (Except.ok (AState.DONE,
          { p with vars := p.vars.map (fun x =>
              if x.1 = varName then (x.1, String.mk d) else x) }))) ∧
    (lookupVar p.vars varName = none →
      setRun fuel p true answer varName defaultV a =
        some (Except.ok (AState.FAILED, p))) := by
  have hd2 : expandText p.vars fuel defaultV.data = some d := hd
  constructor
  · constructor
    · intro hs
      simp [setRun, hp, hd2, Plan.set_value, hs]
    · intro hs
      by_contra hnone
      rw [Option.not_isSome_iff_eq_none] at hnone
      simp [setRun, hp, hd2, Plan.set_value, hnone] at hs
  · intro hnone
    simp [setRun, hp, hd2, Plan.set_value, hnone]

/-- The boolean computed by the precondition scan of `Plan.runnable` is
true exactly when every precondition is DONE (given that the scan did not
raise `KeyError`). -/
theorem allDone_ok_iff (p : Plan) (ns : List String) (c : Bool)
    (h : allDone p ns = Except.ok c) :
    c = true ↔ ∀ n ∈ ns, stateOf p n = some AState.DONE := by
  induction ns generalizing c with
  | nil =>
    simp only [allDone] at h
    cases h
    simp
  | cons n ns ih =>
    simp only [allDone] at h
    rcases h1 : lookupAct p n with _ | b <;> rw [h1] at h
    · cases h
    · rcases h2 : allDone p ns with e | rest <;> rw [h2] at h
      · cases h
      · cases h
        rw [Bool.and_eq_true, decide_eq_true_eq]
        constructor
        · rintro ⟨hr, hb⟩ m hm
          rcases List.mem_cons.mp hm with rfl | hm
          · simp [stateOf, h1, hb]
          · exact ((ih rest h2).mp hr) m hm
        · intro hall
          refine ⟨(ih rest h2).mpr (fun m hm => hall m (List.mem_cons_of_mem _ hm)), ?_⟩
          have hn := hall n (List.mem_cons_self n ns)
          rw [stateOf, h1] at hn
          simpa using hn

/-- Membership in the list built by `Plan.runnable`: an action is kept
exactly when it appears in the scanned list, is PENDING, and has all its
preconditions DONE. -/
theorem runnableAux_mem (p : Plan) (acts : List ActionS) (l : List ActionS)
    (h : runnableAux p acts = Except.ok l) (a : ActionS) :
    a ∈ l ↔ a ∈ acts ∧ a.state = AState.PENDING ∧
      ∀ n ∈ a.after, stateOf p n = some AState.DONE := by
  induction acts generalizing l with
  | nil =>
    simp only [runnableAux] at h
    cases h
    simp
  | cons x rest ih =>
    simp only [runnableAux] at h
    by_cases hx : x.state ≠ AState.PENDING
    · rw [if_pos hx] at h
      rw [ih l h]
      constructor
      · rintro ⟨ha, hpend, hpre⟩
        exact ⟨List.mem_cons_of_mem _ ha, hpend, hpre⟩
      · rintro ⟨ha, hpend, hpre⟩
        rcases List.mem_cons.mp ha with rfl | ha
        · exact absurd hpend hx
        · exact ⟨ha, hpend, hpre⟩
    · push_neg at hx
      rw [if_neg (fun hcon => hcon hx)] at h
      rcases h1 : allDone p x.after with e | canRun <;> rw [h1] at h
      · cases h
      · rcases h2 : runnableAux p rest with e | rv <;> rw [h2] at h
        · cases h
        · cases h
          by_cases hc : canRun = true
          · subst hc
            rw [if_pos rfl]
            constructor
            · intro hm
              rcases List.mem_cons.mp hm with rfl | hm
              · exact ⟨List.mem_cons_self _ _, hx, (allDone_ok_iff p a.after true h1).mp rfl⟩
              · rcases (ih rv h2).mp hm with ⟨ha, hpend, hpre⟩
                exact ⟨List.mem_cons_of_mem _ ha, hpend, hpre⟩
            · rintro ⟨ha, hpend, hpre⟩
              rcases List.mem_cons.mp ha with rfl | ha
              · exact List.mem_cons_self _ _
              · exact List.mem_cons_of_mem _ ((ih rv h2).mpr ⟨ha, hpend, hpre⟩)
          · rw [if_neg hc]
            rw [ih rv h2]
            constructor
            · rintro ⟨ha, hpend, hpre⟩
              exact ⟨List.mem_cons_of_mem _ ha, hpend, hpre⟩
            · rintro ⟨ha, hpend, hpre⟩
              rcases List.mem_cons.mp ha with rfl | ha
              · exact absurd ((allDone_ok_iff p a.after canRun h1).mpr hpre) hc
              · exact ⟨ha, hpend, hpre⟩

/-- C3: when `Plan.runnable` returns a list, an action is in it iff it is
PENDING and every one of its preconditions is exactly DONE; a DONE or
FAILED action is never in it; and `Plan._next` returns `None` exactly when
the eligible list is empty, whatever the random draw. -/
theorem runnable_characterization (p : Plan) (l : List ActionS) (a : ActionS) (k : Nat)
    (h : p.runnable = Except.ok l) :
    (a ∈ l ↔ a ∈ p.actions ∧ a.state = AState.PENDING ∧
      ∀ n ∈ a.after, stateOf p n = some AState.DONE) ∧
    ((a.state = AState.DONE ∨ a.state = AState.FAILED) → a ∉ l) ∧
    (p.next k = Except.ok none ↔ l = []) := by
  have hmem := runnableAux_mem p p.actions l h a
  refine ⟨hmem, ?_, ?_⟩
  · intro hs hm
    have hpend := (hmem.mp hm).2.1
    rcases hs with hs | hs <;> rw [hs] at hpend <;> cases hpend
  · simp only [Plan.next, h]
    constructor
    · intro h2
      by_contra hne
      have hlen : 0 < l.length := List.length_pos.mpr hne
      have hlt : k % l.length < l.length := Nat.mod_lt _ hlen
      have h3 : l[k % l.length]? = none := by
        simpa using h2
      rw [List.getElem?_eq_none_iff] at h3
      omega
    · rintro rfl
      simp

/-- Witness for C3 at a concrete plan: with `a2` depending on the PENDING
`a1`, the eligible list is exactly `[a1]`, and `_next` does not return
`None`. -/
theorem runnable_characterization_witness :
    twoPlan.runnable = Except.ok [⟨"a1", AState.PENDING, []⟩] ∧
    (twoPlan.next 0 = Except.ok none ↔
      ([⟨"a1", AState.PENDING, []⟩] : List ActionS) = []) :=
  ⟨by decide,
   (runnable_characterization twoPlan [⟨"a1", AState.PENDING, []⟩]
     ⟨"a1", AState.PENDING, []⟩ 0 (by decide)).2.2⟩

/-- A successful dict lookup returns an action carrying the looked-up
name. -/
theorem lookupAct_name (p : Plan) (n : String) (a : ActionS)
    (h : lookupAct p n = some a) : a.name = n := by
  simpa using List.find?_some h

/-- A successful dict lookup returns a member of the `_actions` dict. -/
theorem lookupAct_mem (p : Plan) (n : String) (a : ActionS)
    (h : lookupAct p n = some a) : a ∈ p.actions :=
  List.mem_of_find?_eq_some h

/-- An action lookup succeeds exactly for the names in the dict. -/
theorem lookupAct_isSome (p : Plan) (n : String) :
    (lookupAct p n).isSome = true ↔ n ∈ p.actions.map ActionS.name := by
  rw [lookupAct, List.find?_isSome]
  simp

/-- A variable lookup succeeds exactly for the names in the store. -/
theorem lookupVar_isSome {α : Type} (vs : List (String × α)) (n : String) :
    (lookupVar vs n).isSome = true ↔ n ∈ vs.map Prod.fst := by
  rw [lookupVar, Option.isSome_map', List.find?_isSome]
  simp

/-- A name absent from a store looks up to `none`. -/
theorem lookupVar_eq_none {α : Type} (vs : List (String × α)) (n : String)
    (h : n ∉ vs.map Prod.fst) : lookupVar vs n = none := by
  rw [lookupVar, Option.map_eq_none', List.find?_eq_none]
  intro x hx
  simp only [decide_eq_true_eq]
  intro hcon
  exact h (by simpa [hcon] using List.mem_map_of_mem Prod.fst hx)

/-- Looking an action up through a name-preserving per-entry rewrite of
the dict is the rewrite of the plain lookup. -/
theorem lookupAct_map_name_eq (p : Plan) (g : ActionS → ActionS)
    (hg : ∀ a, (g a).name = a.name) (n : String) :
    lookupAct { p with actions := p.actions.map g } n = (lookupAct p n).map g := by
  rw [lookupAct, lookupAct, List.find?_map]
  have hpred : ((fun a : ActionS => decide (a.name = n)) ∘ g) =
      fun a : ActionS => decide (a.name = n) := by
    funext a
    simp [Function.comp, hg]
  rw [hpred]

/-- How `updateState` acts on a single state lookup. -/
theorem stateOf_updateState (p : Plan) (m : String) (s : AState) (n : String) :
    stateOf (updateState p m s) n =
      if n = m then (stateOf p n).map (fun _ => s) else stateOf p n := by
  have hg : ∀ a : ActionS,
      ((fun a : ActionS => if a.name = m then { a with state := s } else a) a).name = a.name := by
    intro a
    by_cases h : a.name = m <;> simp [h]
  rw [stateOf, updateState, lookupAct_map_name_eq p _ hg]
  rcases h1 : lookupAct p n with _ | a
  · by_cases hnm : n = m
    · subst hnm
      simp [stateOf, h1]
    · simp [stateOf, h1, hnm]
  · have hname := lookupAct_name p n a h1
    by_cases hnm : n = m
    · subst hnm
      simp [stateOf, h1, hname]
    · have hne : ¬ (a.name = m) := by
        rw [hname]
        exact hnm
      simp [stateOf, h1, hne, hnm]

/-- `updateState` only touches states: the name sequence is unchanged. -/
theorem updateState_names (p : Plan) (m : String) (s : AState) :
    (updateState p m s).actions.map ActionS.name = p.actions.map ActionS.name := by
  simp only [updateState, List.map_map]
  apply List.map_congr_left
  intro a _
  by_cases h : a.name = m <;> simp [Function.comp, h]

/-- `updateState` leaves the variable store alone. -/
theorem updateState_vars (p : Plan) (m : String) (s : AState) :
    (updateState p m s).vars = p.vars := rfl

/-- The action loop of `Plan.restore`, run on a state document whose
names are distinct and all present: it succeeds, leaves the variables and
the name sequence alone, and afterwards each action's state is the
recorded one when that is DONE or FAILED, and whatever it was before
otherwise. -/
theorem restoreActs_ok (l : List (String × AState)) (q : Plan)
    (hnodup : (l.map Prod.fst).Nodup)
    (hpresent : ∀ x ∈ l, (lookupAct q x.1).isSome = true) :
    ∃ r, restoreActs q l = Except.ok r ∧
      r.vars = q.vars ∧
      r.actions.map ActionS.name = q.actions.map ActionS.name ∧
      ∀ n, stateOf r n =
        match lookupVar l n with
        | some s => if s = AState.PENDING then stateOf q n else some s
        | none => stateOf q n := by
  induction l generalizing q with
  | nil =>
    refine ⟨q, rfl, rfl, rfl, fun n => ?_⟩
    simp [lookupVar]
  | cons x rest ih =>
    obtain ⟨m, s⟩ := x
    have hm : (lookupAct q m).isSome = true :=
      hpresent (m, s) (List.mem_cons_self _ _)
    rcases h1 : lookupAct q m with _ | a
    · rw [h1] at hm; cases hm
    have hnodup2 : (rest.map Prod.fst).Nodup := (List.nodup_cons.mp hnodup).2
    have hnotin : m ∉ rest.map Prod.fst := (List.nodup_cons.mp hnodup).1
    have hrest0 : lookupVar rest m = none := lookupVar_eq_none rest m hnotin
    have hpres2 : ∀ s2 : AState,
        ∀ y ∈ rest, (lookupAct (updateState q m s2) y.1).isSome = true := by
      intro s2 y hy
      have hg : ∀ a : ActionS,
          ((fun a : ActionS => if a.name = m then { a with state := s2 } else a) a).name
            = a.name := by
        intro a
        by_cases h : a.name = m <;> simp [h]
      rw [updateState, lookupAct_map_name_eq q _ hg, Option.isSome_map']
      exact hpresent y (List.mem_cons_of_mem _ hy)
    have hlv : ∀ n, n ≠ m → ∀ l2 : List (String × AState),
        lookupVar ((m, s) :: l2) n = lookupVar l2 n := by
      intro n hnm l2
      simp only [lookupVar, List.find?]
      rw [decide_eq_false (by simpa using fun h => hnm h.symm)]
    -- the three branches on the recorded state
    rcases s with _ | _ | _
    · -- PENDING: the entry is skipped
      simp only [restoreActs, h1]
      obtain ⟨r, hr, hrv, hrn, hrs⟩ := ih q hnodup2
        (fun y hy => hpresent y (List.mem_cons_of_mem _ hy))
      refine ⟨r, hr, hrv, hrn, fun n => ?_⟩
      by_cases hnm : n = m
      · subst hnm
        rw [hrs n, hrest0]
        simp [lookupVar]
      · rw [hrs n, hlv n hnm]
    · -- DONE: `done()` is called through the dict
      simp only [restoreActs, h1]
      obtain ⟨r, hr, hrv, hrn, hrs⟩ :=
        ih (updateState q m AState.DONE) hnodup2 (hpres2 AState.DONE)
      refine ⟨r, hr, by rw [hrv]; rfl, by rw [hrn, updateState_names], fun n => ?_⟩
      by_cases hnm : n = m
      · subst hnm
        rw [hrs n, hrest0]
        have hst : stateOf (updateState q n AState.DONE) n = some AState.DONE := by
          rw [stateOf_updateState, if_pos rfl, stateOf, h1]
          rfl
        simp [lookupVar, hst]
      · rw [hrs n, hlv n hnm]
        have hst : stateOf (updateState q m AState.DONE) n = stateOf q n := by
          rw [stateOf_updateState, if_neg hnm]
        rw [hst]
    · -- FAILED: `fail()` is called through the dict
      simp only [restoreActs, h1]
      obtain ⟨r, hr, hrv, hrn, hrs⟩ :=
        ih (updateState q m AState.FAILED) hnodup2 (hpres2 AState.FAILED)
      refine ⟨r, hr, by rw [hrv]; rfl, by rw [hrn, updateState_names], fun n => ?_⟩
      by_cases hnm : n = m
      · subst hnm
        rw [hrs n, hrest0]
        have hst : stateOf (updateState q n AState.FAILED) n = some AState.FAILED := by
          rw [stateOf_updateState, if_pos rfl, stateOf, h1]
          rfl
        simp [lookupVar, hst]
      · rw [hrs n, hlv n hnm]
        have hst : stateOf (updateState q m AState.FAILED) n = stateOf q n := by
          rw [stateOf_updateState, if_neg hnm]
        rw [hst]

/-- How `set_value` acts on a single variable lookup (when it succeeds). -/
theorem lookupVar_set_value (q q2 : Plan) (m v : String)
    (h : q.set_value m v = Except.ok q2) :
    q2.actions = q.actions ∧
    q2.vars.map Prod.fst = q.vars.map Prod.fst ∧
    ∀ n, lookupVar q2.vars n =
      if n = m then (lookupVar q.vars n).map (fun _ => v) else lookupVar q.vars n := by
  rw [Plan.set_value] at h
  by_cases hs : (lookupVar q.vars m).isSome = true
  · rw [if_pos hs] at h
    cases h
    refine ⟨rfl, ?_, fun n => ?_⟩
    · simp only [List.map_map]
      apply List.map_congr_left
      intro x _
      by_cases h : x.1 = m <;> simp [Function.comp, h]
    · simp only [lookupVar, List.find?_map]
      have hpred : (fun x : String × String => decide (x.1 = n)) ∘
          (fun x : String × String => if x.1 = m then (x.1, v) else x) =
          fun x : String × String => decide (x.1 = n) := by
        funext x
        by_cases h : x.1 = m <;> simp [Function.comp, h]
      rw [hpred]
      rcases h1 : List.find? (fun x : String × String => decide (x.1 = n)) q.vars with _ | x
      · simp [lookupVar, h1]
      · have hx : x.1 = n := by simpa using List.find?_some h1
        by_cases hnm : n = m
        · subst hnm
          simp [lookupVar, h1, hx]
        · simp [lookupVar, h1, hx, hnm]
  · rw [if_neg hs] at h
    cases h

/-- A head entry with a different key does not affect a lookup. -/
theorem lookupVar_cons_ne {α : Type} (m : String) (s : α) (l : List (String × α))
    (n : String) (hnm : n ≠ m) : lookupVar ((m, s) :: l) n = lookupVar l n := by
  simp only [lookupVar, List.find?]
  rw [decide_eq_false (by simpa using fun h => hnm h.symm)]

/-- A head entry with the looked-up key wins. -/
theorem lookupVar_cons_self {α : Type} (m : String) (s : α) (l : List (String × α)) :
    lookupVar ((m, s) :: l) m = some s := by
  simp [lookupVar, List.find?]

/-- The variable loop of `Plan.restore`, run on a snapshot whose variable
names are distinct and all defined by the plan: it succeeds, leaves the
actions alone, and afterwards each recorded variable holds its recorded
value while the others are untouched. -/
theorem restoreVars_ok (l : List (String × String)) (q : Plan)
    (hnodup : (l.map Prod.fst).Nodup)
    (hpresent : ∀ x ∈ l, (lookupVar q.vars x.1).isSome = true) :
    ∃ r, restoreVars q l = Except.ok r ∧
      r.actions = q.actions ∧
      ∀ n, lookupVar r.vars n =
        match lookupVar l n with
        | some v => some v
        | none => lookupVar q.vars n := by
  induction l generalizing q with
  | nil =>
    refine ⟨q, rfl, rfl, fun n => ?_⟩
    simp [lookupVar]
  | cons x rest ih =>
    obtain ⟨m, v⟩ := x
    have hm : (lookupVar q.vars m).isSome = true :=
      hpresent (m, v) (List.mem_cons_self _ _)
    have hset : q.set_value m v = Except.ok { q with vars := q.vars.map (fun x =>
        if x.1 = m then (x.1, v) else x) } := by
      rw [Plan.set_value, if_pos hm]
    obtain ⟨hact, hfst, hlv⟩ := lookupVar_set_value q _ m v hset
    have hnodup2 : (rest.map Prod.fst).Nodup := (List.nodup_cons.mp hnodup).2
    have hnotin : m ∉ rest.map Prod.fst := (List.nodup_cons.mp hnodup).1
    have hrest0 : lookupVar rest m = none := lookupVar_eq_none rest m hnotin
    have hpresent2 : ∀ y ∈ rest,
        (lookupVar (Plan.vars { q with vars := q.vars.map (fun x =>
          if x.1 = m then (x.1, v) else x) }) y.1).isSome = true := by
      intro y hy
      rw [hlv y.1]
      by_cases hym : y.1 = m
      · rw [if_pos hym, Option.isSome_map']
        rw [hym]
        exact hm
      · rw [if_neg hym]
        exact hpresent y (List.mem_cons_of_mem _ hy)
    obtain ⟨r, hr, hra, hrs⟩ := ih _ hnodup2 hpresent2
    refine ⟨r, ?_, by rw [hra, hact], fun n => ?_⟩
    · simp only [restoreVars, hset]
      exact hr
    · by_cases hnm : n = m
      · subst hnm
        rw [hrs n, hrest0, lookupVar_cons_self]
        obtain ⟨w, hw⟩ := Option.isSome_iff_exists.mp hm
        rw [hlv n, if_pos rfl, hw]
        rfl
      · rw [hrs n, lookupVar_cons_ne m v rest n hnm, hlv n, if_neg hnm]

/-- The snapshot's action list looks up to the snapshotted states. -/
theorem state_doc_lookup (p : Plan) (n : String) :
    lookupVar p.state_doc.actions n = stateOf p n := by
  simp only [Plan.state_doc, lookupVar, List.find?_map]
  have hpred : ((fun x : String × AState => decide (x.1 = n)) ∘
      (fun a : ActionS => (a.name, a.state))) =
      fun a : ActionS => decide (a.name = n) := by
    funext a
    simp [Function.comp]
  rw [hpred, stateOf, lookupAct]
  rcases h1 : List.find? (fun a : ActionS => decide (a.name = n)) p.actions with _ | a <;> simp

/-- C4: snapshotting a plan (`Plan._state`) and restoring the snapshot
onto a freshly loaded plan from the same static definition — same action
names in the same order, all PENDING, and the same variable names in the
same order — reproduces exactly the step states and variable values the
original plan had at snapshot time. -/
theorem snapshot_restore_roundtrip (p q : Plan)
    (hnamesA : q.actions.map ActionS.name = p.actions.map ActionS.name)
    (hnodupA : (p.actions.map ActionS.name).Nodup)
    (hfresh : ∀ a ∈ q.actions, a.state = AState.PENDING)
    (hnamesV : q.vars.map Prod.fst = p.vars.map Prod.fst)
    (hnodupV : (p.vars.map Prod.fst).Nodup) :
    ∃ r, q.restore p.state_doc = Except.ok r ∧
      (∀ n, stateOf r n = stateOf p n) ∧
      (∀ n, lookupVar r.vars n = lookupVar p.vars n) := by
  have hdocfst : p.state_doc.actions.map Prod.fst = p.actions.map ActionS.name := by
    simp [Plan.state_doc, List.map_map, Function.comp]
  have hpresA : ∀ x ∈ p.state_doc.actions, (lookupAct q x.1).isSome = true := by
    intro x hx
    rw [lookupAct_isSome, hnamesA, ← hdocfst]
    exact List.mem_map_of_mem Prod.fst hx
  obtain ⟨q1, hq1, hq1v, hq1n, hq1s⟩ :=
    restoreActs_ok p.state_doc.actions q (by rw [hdocfst]; exact hnodupA) hpresA
  have hdv : p.state_doc.vars = p.vars := rfl
  have hpresV : ∀ x ∈ p.state_doc.vars, (lookupVar q1.vars x.1).isSome = true := by
    intro x hx
    rw [hq1v, lookupVar_isSome, hnamesV]
    rw [hdv] at hx
    exact List.mem_map_of_mem Prod.fst hx
  obtain ⟨r, hr, hra, hrs⟩ :=
    restoreVars_ok p.state_doc.vars q1 (by rw [hdv]; exact hnodupV) hpresV
  refine ⟨r, ?_, fun n => ?_, fun n => ?_⟩
  · simp only [Plan.restore, hq1]
    exact hr
  · -- step states round-trip
    have hstq1 : stateOf r n = stateOf q1 n := by
      rw [stateOf, stateOf, lookupAct, lookupAct, hra]
    rw [hstq1, hq1s n, state_doc_lookup]
    rcases hsp : stateOf p n with _ | s
    · -- the name is in neither plan
      have hq0 : lookupAct q n = none := by
        rcases h2 : lookupAct q n with _ | a
        · rfl
        · exfalso
          have : n ∈ p.actions.map ActionS.name := by
            rw [← hnamesA, ← lookupAct_isSome, h2]
            rfl
          rw [← lookupAct_isSome p n] at this
          rw [stateOf, Option.map_eq_none'] at hsp
          rw [hsp] at this
          cases this
      rw [stateOf, hq0]
      rfl
    · rcases s with _ | _ | _
      · -- PENDING: left at the fresh default, which is PENDING
        have hmem : n ∈ q.actions.map ActionS.name := by
          rw [hnamesA, ← lookupAct_isSome]
          rw [stateOf] at hsp
          rcases h2 : lookupAct p n with _ | a
          · rw [h2] at hsp
            cases hsp
          · rfl
        rw [← lookupAct_isSome] at hmem
        obtain ⟨a, ha⟩ := Option.isSome_iff_exists.mp hmem
        have : a.state = AState.PENDING := hfresh a (lookupAct_mem q n a ha)
        simp [stateOf, ha, this]
      · rfl
      · rfl
  · -- variable values round-trip
    rw [hrs n, hdv, hq1v]
    rcases hv : lookupVar p.vars n with _ | v
    · have : n ∉ p.vars.map Prod.fst := by
        intro hmem
        rw [← lookupVar_isSome, hv] at hmem
        cases hmem
      rw [lookupVar_eq_none q.vars n (by rw [hnamesV]; exact this)]
    · rfl

/-- Witness for C4 at a concrete plan: snapshotting a mid-run plan with
one DONE, one FAILED and one PENDING action and one variable, then
restoring onto the freshly loaded definition, reproduces the states and
values. -/
theorem snapshot_restore_roundtrip_witness :
    (freshPlan.actions.map ActionS.name = snapPlan.actions.map ActionS.name ∧
      (∀ a ∈ freshPlan.actions, a.state = AState.PENDING)) ∧
    ∃ r, freshPlan.restore snapPlan.state_doc = Except.ok r ∧
      (∀ n, stateOf r n = stateOf snapPlan n) ∧
      (∀ n, lookupVar r.vars n = lookupVar snapPlan.vars n) :=
  ⟨⟨by decide, by decide⟩,
   snapshot_restore_roundtrip snapPlan freshPlan (by decide) (by decide) (by decide)
     (by decide) (by decide)⟩

/-- Witness for C7 at concrete inputs: assigning to the existing variable
`foo` succeeds, assigning to the undefined `bar` fails and leaves the plan
unchanged. -/
theorem set_assignment_spec_witness :
    (pendAct.state = AState.PENDING ∧
      expandText fooPlan.vars 1 ("x".toList) = some ("x".toList)) ∧
    (lookupVar fooPlan.vars "bar" = none →
      setRun 1 fooPlan true "" "bar" "x" pendAct =
        some (Except.ok (AState.FAILED, fooPlan))) :=
  ⟨⟨rfl, by decide⟩,
   (set_assignment_spec 1 fooPlan "" "bar" "x" pendAct ("x".toList) rfl (by decide)).2⟩


/-- Fuel stability: a result that `_circular` reaches within some fuel is
reached with any more fuel (the fuel only cuts off infinite recursion). -/
theorem circularF_mono (fuel : Nat) (p : Plan) (start : String) :
    ∀ (names : List String) (r : Except Unit Bool),
      circularF fuel p start names = some r →
      circularF (fuel + 1) p start names = some r := by
  induction fuel with
  | zero =>
    intro names r h
    cases names with
    | nil =>
      rw [circularF] at h
      cases h
      rfl
    | cons x rest =>
      rw [circularF] at h
      cases h
  | succ f ih =>
    intro names r h
    cases names with
    | nil =>
      rw [circularF] at h
      cases h
      rfl
    | cons x rest =>
      rw [circularF] at h ⊢
      by_cases hx : x = start
      · rw [if_pos hx] at h ⊢
        exact h
      · rw [if_neg hx] at h ⊢
        rcases h1 : lookupAct p x with _ | b
        · simp only [h1] at h ⊢
          exact h
        · simp only [h1] at h ⊢
          rcases h2 : circularF f p start b.after with _ | er
          · simp only [h2] at h
            cases h
          · rcases er with e | bb
            · simp only [h2] at h
              simp only [ih b.after (Except.error e) h2]
              exact h
            · cases bb
              · simp only [h2] at h
                simp only [ih b.after (Except.ok false) h2]
                exact ih rest r h
              · simp only [h2] at h
                simp only [ih b.after (Except.ok true) h2]
                exact h

/-- When `_circular` terminates with False, every scanned name differs
from `start`, exists in the dict, and its own precondition forest also
terminates with False. -/
theorem circularF_false (fuel : Nat) (p : Plan) (start : String) :
    ∀ (names : List String),
      circularF (fuel + 1) p start names = some (Except.ok false) →
      ∀ n ∈ names, n ≠ start ∧ ∃ b, lookupAct p n = some b ∧
        circularF fuel p start b.after = some (Except.ok false) := by
  induction fuel with
  | zero =>
    intro names h n hn
    cases names with
    | nil => cases hn
    | cons x rest =>
      rw [circularF] at h
      by_cases hx : x = start
      · rw [if_pos hx] at h
        cases h
      · rw [if_neg hx] at h
        rcases h1 : lookupAct p x with _ | b
        · simp only [h1] at h
          cases h
        · simp only [h1] at h
          rcases h2 : circularF 0 p start b.after with _ | er
          · simp only [h2] at h
            cases h
          · rcases er with e | bb
            · simp only [h2] at h
              cases h
            · cases bb
              · simp only [h2] at h
                rcases List.mem_cons.mp hn with rfl | hn2
                · exact ⟨hx, b, h1, h2⟩
                · cases rest with
                  | nil => cases hn2
                  | cons y ys =>
                    rw [circularF] at h
                    cases h
              · simp only [h2] at h
                cases h
  | succ f ih =>
    intro names h n hn
    cases names with
    | nil => cases hn
    | cons x rest =>
      rw [circularF] at h
      by_cases hx : x = start
      · rw [if_pos hx] at h
        cases h
      · rw [if_neg hx] at h
        rcases h1 : lookupAct p x with _ | b
        · simp only [h1] at h
          cases h
        · simp only [h1] at h
          rcases h2 : circularF (f + 1) p start b.after with _ | er
          · simp only [h2] at h
            cases h
          · rcases er with e | bb
            · simp only [h2] at h
              cases h
            · cases bb
              · simp only [h2] at h
                rcases List.mem_cons.mp hn with rfl | hn2
                · exact ⟨hx, b, h1, h2⟩
                · obtain ⟨hne, b2, hb2, hsub⟩ := ih rest h n hn2
                  exact ⟨hne, b2, hb2, circularF_mono f p start b2.after _ hsub⟩
              · simp only [h2] at h
                cases h

/-- When `_circular` returns True it has found a dependency path from one
of the scanned names back to `start`. -/
theorem circularF_true (fuel : Nat) (p : Plan) (start : String) :
    ∀ (names : List String),
      circularF fuel p start names = some (Except.ok true) →
      ∃ n ∈ names, PathTo p start n := by
  induction fuel with
  | zero =>
    intro names h
    cases names with
    | nil =>
      rw [circularF] at h
      cases h
    | cons x rest =>
      rw [circularF] at h
      cases h
  | succ f ih =>
    intro names h
    cases names with
    | nil =>
      rw [circularF] at h
      cases h
    | cons x rest =>
      rw [circularF] at h
      by_cases hx : x = start
      · exact ⟨x, List.mem_cons_self _ _, by rw [hx]; exact PathTo.refl⟩
      · rw [if_neg hx] at h
        rcases h1 : lookupAct p x with _ | b
        · simp only [h1] at h
          cases h
        · simp only [h1] at h
          rcases h2 : circularF f p start b.after with _ | er
          · simp only [h2] at h
            cases h
          · rcases er with e | bb
            · simp only [h2] at h
              cases h
            · cases bb
              · simp only [h2] at h
                obtain ⟨n, hn, hp⟩ := ih rest h
                exact ⟨n, List.mem_cons_of_mem _ hn, hp⟩
              · obtain ⟨m, hm, hp⟩ := ih b.after h2
                exact ⟨x, List.mem_cons_self _ _, PathTo.step h1 hm hp⟩

/-- When `_circular` raises `KeyError` it has followed a precondition
chain from one of the scanned names to a name missing from the dict. -/
theorem circularF_error (fuel : Nat) (p : Plan) (start : String) :
    ∀ (names : List String) (e : Unit),
      circularF fuel p start names = some (Except.error e) →
      ∃ n ∈ names, ReachesMissing p n := by
  induction fuel with
  | zero =>
    intro names e h
    cases names with
    | nil =>
      rw [circularF] at h
      cases h
    | cons x rest =>
      rw [circularF] at h
      cases h
  | succ f ih =>
    intro names e h
    cases names with
    | nil =>
      rw [circularF] at h
      cases h
    | cons x rest =>
      rw [circularF] at h
      by_cases hx : x = start
      · rw [if_pos hx] at h
        cases h
      · rw [if_neg hx] at h
        rcases h1 : lookupAct p x with _ | b
        · exact ⟨x, List.mem_cons_self _ _, ReachesMissing.here h1⟩
        · simp only [h1] at h
          rcases h2 : circularF f p start b.after with _ | er
          · simp only [h2] at h
            cases h
          · rcases er with e2 | bb
            · obtain ⟨m, hm, hr⟩ := ih b.after e2 h2
              exact ⟨x, List.mem_cons_self _ _, ReachesMissing.step h1 hm hr⟩
            · cases bb
              · simp only [h2] at h
                obtain ⟨n, hn, hr⟩ := ih rest e h
                exact ⟨n, List.mem_cons_of_mem _ hn, hr⟩
              · simp only [h2] at h
                cases h

/-- A terminating False answer of `_circular` rules out any dependency
path from the scanned names back to `start`. -/
theorem circularF_false_no_path (p : Plan) (start : String) :
    ∀ (n : String), PathTo p start n →
      ∀ (fuel : Nat) (names : List String), n ∈ names →
        circularF (fuel + 1) p start names ≠ some (Except.ok false) := by
  intro n hpath
  induction hpath with
  | refl =>
    intro fuel names hmem hcon
    obtain ⟨hne, -⟩ := circularF_false fuel p start names hcon start hmem
    exact hne rfl
  | @step n2 m b h1 hm _ ih =>
    intro fuel names hmem hcon
    obtain ⟨hne, b2, hb2, hsub⟩ := circularF_false fuel p start names hcon n2 hmem
    rw [h1] at hb2
    cases hb2
    cases fuel with
    | zero =>
      rcases hA : b.after with _ | ⟨y, ys⟩
      · rw [hA] at hm
        cases hm
      · rw [hA] at hsub
        rw [circularF] at hsub
        cases hsub
    | succ f => exact ih f b.after hm hsub

/-- A terminating False answer of `_circular` rules out any reachable
missing name among the scanned names. -/
theorem circularF_false_no_missing (p : Plan) (start : String) :
    ∀ (n : String), ReachesMissing p n →
      ∀ (fuel : Nat) (names : List String), n ∈ names →
        circularF (fuel + 1) p start names ≠ some (Except.ok false) := by
  intro n hreach
  induction hreach with
  | @here n2 h0 =>
    intro fuel names hmem hcon
    obtain ⟨-, b2, hb2, -⟩ := circularF_false fuel p start names hcon n2 hmem
    rw [h0] at hb2
    cases hb2
  | @step n2 m b h1 hm _ ih =>
    intro fuel names hmem hcon
    obtain ⟨-, b2, hb2, hsub⟩ := circularF_false fuel p start names hcon n2 hmem
    rw [h1] at hb2
    cases hb2
    cases fuel with
    | zero =>
      rcases hA : b.after with _ | ⟨y, ys⟩
      · rw [hA] at hm
        cases hm
      · rw [hA] at hsub
        rw [circularF] at hsub
        cases hsub
    | succ f => exact ih f b.after hm hsub

/-- A True verdict of `_well_formed` means every action's `_circular`
check terminated with False. -/
theorem wellFormedGo_true (fuel : Nat) (p : Plan) :
    ∀ (l : List ActionS), wellFormedGo fuel p l = some true →
      ∀ a ∈ l, circularF fuel p a.name a.after = some (Except.ok false) := by
  intro l
  induction l with
  | nil =>
    intro h a ha
    cases ha
  | cons x rest ih =>
    intro h a ha
    rw [wellFormedGo] at h
    rcases h1 : circularF fuel p x.name x.after with _ | er
    · simp only [h1] at h
      cases h
    · rcases er with e | bb
      · simp only [h1] at h
        cases h
      · cases bb
        · simp only [h1] at h
          rcases List.mem_cons.mp ha with rfl | ha2
          · exact h1
          · exact ih h a ha2
        · simp only [h1] at h
          cases h

/-- A False verdict of `_well_formed` pins down an action whose
`_circular` check found `start` again or raised `KeyError`. -/
theorem wellFormedGo_false (fuel : Nat) (p : Plan) :
    ∀ (l : List ActionS), wellFormedGo fuel p l = some false →
      ∃ a ∈ l, (∃ e, circularF fuel p a.name a.after = some (Except.error e)) ∨
        circularF fuel p a.name a.after = some (Except.ok true) := by
  intro l
  induction l with
  | nil =>
    intro h
    rw [wellFormedGo] at h
    cases h
  | cons x rest ih =>
    intro h
    rw [wellFormedGo] at h
    rcases h1 : circularF fuel p x.name x.after with _ | er
    · simp only [h1] at h
      cases h
    · rcases er with e | bb
      · exact ⟨x, List.mem_cons_self _ _, Or.inl ⟨e, h1⟩⟩
      · cases bb
        · simp only [h1] at h
          obtain ⟨a, ha, hc⟩ := ih h
          exact ⟨a, List.mem_cons_of_mem _ ha, hc⟩
        · exact ⟨x, List.mem_cons_self _ _, Or.inr h1⟩

/-- C2 (amended): whenever `_well_formed` terminates with a boolean, that
boolean is false exactly when some action lies on a dependency cycle or
has a precondition chain reaching a dangling name; and running a plan on
which `_well_formed` returned False raises the structural error
(`IncorrectPlan`) with the plan unchanged — before any step transitions
state.  (When the only cycle is merely reachable from an off-cycle step
checked first, `_well_formed` does not terminate at all: see the
counterexample.) -/
theorem well_formed_characterization (p : Plan) (fuel : Nat) (b : Bool) :
    (Plan.well_formed fuel p = some b → (b = false ↔ BadPlan p)) ∧
    (∀ q r, Runs fuel p q r → Plan.well_formed fuel p = some false →
      q = p ∧ r = RunResult.malformed) := by
  constructor
  · intro h
    rw [Plan.well_formed] at h
    constructor
    · intro hb
      subst hb
      obtain ⟨a, ha, hcase⟩ := wellFormedGo_false fuel p p.actions h
      rcases hcase with ⟨e, herr⟩ | htrue
      · obtain ⟨n, hn, hr⟩ := circularF_error fuel p a.name a.after e herr
        exact ⟨a, ha, Or.inr ⟨n, hn, hr⟩⟩
      · obtain ⟨n, hn, hp⟩ := circularF_true fuel p a.name a.after htrue
        exact ⟨a, ha, Or.inl ⟨n, hn, hp⟩⟩
    · intro hbad
      cases b with
      | false => rfl
      | true =>
        exfalso
        obtain ⟨a, ha, hcase⟩ := hbad
        have hfalse := wellFormedGo_true fuel p p.actions h a ha
        rcases hcase with ⟨n, hn, hp⟩ | ⟨n, hn, hr⟩
        · cases fuel with
          | zero =>
            rcases hA : a.after with _ | ⟨y, ys⟩
            · rw [hA] at hn
              cases hn
            · rw [hA] at hfalse
              rw [circularF] at hfalse
              cases hfalse
          | succ f => exact circularF_false_no_path p a.name n hp f a.after hn hfalse
        · cases fuel with
          | zero =>
            rcases hA : a.after with _ | ⟨y, ys⟩
            · rw [hA] at hn
              cases hn
            · rw [hA] at hfalse
              rw [circularF] at hfalse
              cases hfalse
          | succ f => exact circularF_false_no_missing p a.name n hr f a.after hn hfalse
  · intro q r hruns hwf
    cases hruns with
    | malformed h2 => exact ⟨rfl, rfl⟩
    | completed h2 hex hterm =>
      rw [hwf] at h2
      cases h2
    | interrupted h2 hex =>
      rw [hwf] at h2
      cases h2

/-- Witness for C2 (amended) at a concrete plan: the single-action
`donePlan` validates to True, so it is not a bad plan. -/
theorem well_formed_characterization_witness :
    Plan.well_formed 1 donePlan = some true ∧ (true = false ↔ BadPlan donePlan) :=
  ⟨by decide, (well_formed_characterization donePlan 1 true).1 (by decide)⟩

/-- The two cycle members of `cyclePlan`, checked from the off-cycle
start `c`, make `_circular` recurse forever: no fuel suffices. -/
theorem circular_cycle_diverges (fuel : Nat) :
    circularF fuel cyclePlan "c" ["a"] = none ∧
    circularF fuel cyclePlan "c" ["b"] = none := by
  induction fuel with
  | zero => exact ⟨rfl, rfl⟩
  | succ f ih =>
    constructor
    · rw [circularF, if_neg (by decide)]
      have h1 : lookupAct cyclePlan "a" = some ⟨"a", AState.PENDING, ["b"]⟩ := by decide
      simp only [h1, ih.2]
    · rw [circularF, if_neg (by decide)]
      have h1 : lookupAct cyclePlan "b" = some ⟨"b", AState.PENDING, ["a"]⟩ := by decide
      simp only [h1, ih.1]

/-- C2 counterexample: `cyclePlan` has the dependency cycle `a -> b -> a`,
merely reachable from the off-cycle action `c` that comes first in dict
order; on it `_well_formed` never returns a boolean (the recursion in
`_circular` never terminates — in Python, `RecursionError`), refuting the
claim that well-formedness "is false" for every such plan. -/
theorem wellformed_reachable_cycle_diverges :
    PathTo cyclePlan "a" "b" ∧ wfDiverges cyclePlan := by
  constructor
  · exact PathTo.step (b := ⟨"b", AState.PENDING, ["a"]⟩) (by decide) (by decide)
      PathTo.refl
  · intro fuel
    rw [Plan.well_formed]
    have hc : cyclePlan.actions =
        ⟨"c", AState.PENDING, ["a"]⟩ ::
          [⟨"a", AState.PENDING, ["b"]⟩, ⟨"b", AState.PENDING, ["a"]⟩] := rfl
    rw [hc, wellFormedGo]
    simp only [(circular_cycle_diverges fuel).1]

/-- Two action lists with the same names and precondition lists (only
states may differ) have corresponding `find?` results. -/
theorem find?_name_of_map_eq (l1 : List ActionS) :
    ∀ (l2 : List ActionS),
      l1.map (fun a => (a.name, a.after)) = l2.map (fun a => (a.name, a.after)) →
      ∀ (n : String),
        (l1.find? (fun a => a.name = n) = none → l2.find? (fun a => a.name = n) = none) ∧
        (∀ b, l1.find? (fun a => a.name = n) = some b →
          ∃ c, l2.find? (fun a => a.name = n) = some c ∧
            c.name = b.name ∧ c.after = b.after) := by
  induction l1 with
  | nil =>
    intro l2 hs n
    cases l2 with
    | nil => simp
    | cons y ys => simp at hs
  | cons x xs ih =>
    intro l2 hs n
    cases l2 with
    | nil => simp at hs
    | cons y ys =>
      simp only [List.map_cons, List.cons.injEq, Prod.mk.injEq] at hs
      obtain ⟨⟨hname, hafter⟩, hrest⟩ := hs
      by_cases hx : x.name = n
      · constructor
        · intro hcon
          rw [List.find?_cons_of_pos _ (by simpa using hx)] at hcon
          cases hcon
        · intro b hb
          rw [List.find?_cons_of_pos _ (by simpa using hx)] at hb
          cases hb
          refine ⟨y, ?_, hname.symm, hafter.symm⟩
          rw [List.find?_cons_of_pos _ (by simp [← hname, hx])]
      · have hy : ¬ (y.name = n) := by
          rw [← hname]
          exact hx
        rw [List.find?_cons_of_neg _ (by simpa using hx),
          List.find?_cons_of_neg _ (by simpa using hy)]
        exact ih ys hrest n

/-- Dependency paths only depend on the names and precondition lists, not
on the states. -/
theorem pathTo_of_sameStruct (p q : Plan)
    (hs : p.actions.map (fun a => (a.name, a.after)) =
      q.actions.map (fun a => (a.name, a.after)))
    (start n : String) (h : PathTo p start n) : PathTo q start n := by
  induction h with
  | refl => exact PathTo.refl
  | @step n2 m b h1 hm _ ih =>
    obtain ⟨c, hc, hcn, hca⟩ := (find?_name_of_map_eq p.actions q.actions hs n2).2 b h1
    exact PathTo.step hc (by rw [hca]; exact hm) ih

/-- Equal name-and-precondition sequences give equal name sequences. -/
theorem names_of_sameStruct (l1 l2 : List ActionS)
    (hs : l1.map (fun a => (a.name, a.after)) = l2.map (fun a => (a.name, a.after))) :
    l1.map ActionS.name = l2.map ActionS.name := by
  have h2 := congrArg (List.map Prod.fst) hs
  simpa [List.map_map, Function.comp] using h2

/-- `_reset_failed` preserves every action's name and preconditions. -/
theorem reset_failed_sameStruct (p : Plan) :
    p.actions.map (fun a => (a.name, a.after)) =
      p.reset_failed.actions.map (fun a => (a.name, a.after)) := by
  rw [Plan.reset_failed]
  rw [List.map_map]
  refine (List.map_congr_left ?_)
  intro x _
  by_cases hx : x.state = AState.FAILED <;> simp [Function.comp, hx]

/-- One loop iteration of `Plan.run` preserves every action's name and
preconditions (only a state and the variables change). -/
theorem updateState_sameStruct (p : Plan) (n : String) (s : AState) :
    p.actions.map (fun a => (a.name, a.after)) =
      (updateState p n s).actions.map (fun a => (a.name, a.after)) := by
  rw [updateState, List.map_map]
  refine (List.map_congr_left ?_)
  intro x _
  by_cases hx : x.name = n <;> simp [Function.comp, hx]

/-- One loop iteration of `Plan.run` preserves every action's name and
preconditions (only a state and the variables change). -/
theorem execStep_sameStruct (p q : Plan) (h : ExecStep p q) :
    p.actions.map (fun a => (a.name, a.after)) =
      q.actions.map (fun a => (a.name, a.after)) := by
  cases h with
  | mk hr hm hs => exact updateState_sameStruct _ _ _

/-- The whole loop of `Plan.run` preserves every action's name and
preconditions. -/
theorem exec_sameStruct (p q : Plan) (h : Exec p q) :
    p.actions.map (fun a => (a.name, a.after)) =
      q.actions.map (fun a => (a.name, a.after)) := by
  induction h with
  | refl => rfl
  | tail hab hbc ih => exact ih.trans (execStep_sameStruct _ _ hbc)

/-- With dict-unique names, looking up a member action by its own name
finds exactly that action. -/
theorem find?_name_self (l : List ActionS) (a : ActionS) (ha : a ∈ l)
    (hnodup : (l.map ActionS.name).Nodup) :
    l.find? (fun x => x.name = a.name) = some a := by
  induction l with
  | nil => cases ha
  | cons x rest ih =>
    rcases List.mem_cons.mp ha with rfl | ha2
    · rw [List.find?_cons_of_pos _ (by simp)]
    · have hx : ¬ (x.name = a.name) := by
        intro hcon
        have hmem : a.name ∈ rest.map ActionS.name := List.mem_map_of_mem _ ha2
        rw [← hcon] at hmem
        exact (List.nodup_cons.mp hnodup).1 hmem
      rw [List.find?_cons_of_neg _ (by simpa using hx)]
      exact ih ha2 (List.nodup_cons.mp hnodup).2

/-- The precondition scan of `Plan.runnable` looked every scanned name up
successfully whenever it returned (rather than raising `KeyError`). -/
theorem allDone_ok_lookups (p : Plan) :
    ∀ (ns : List String) (c : Bool), allDone p ns = Except.ok c →
      ∀ n ∈ ns, ∃ b, lookupAct p n = some b := by
  intro ns
  induction ns with
  | nil =>
    intro c h n hn
    cases hn
  | cons x rest ih =>
    intro c h n hn
    rw [allDone] at h
    rcases h1 : lookupAct p x with _ | b
    · simp only [h1] at h
      cases h
    · simp only [h1] at h
      rcases h2 : allDone p rest with e | r2
      · simp only [h2] at h
        cases h
      · rcases List.mem_cons.mp hn with rfl | hn2
        · exact ⟨b, h1⟩
        · exact ih r2 h2 n hn2

/-- When `Plan.runnable` returns a list, every PENDING action's
precondition scan returned a boolean. -/
theorem runnable_ok_allDone (p : Plan) :
    ∀ (acts l : List ActionS), runnableAux p acts = Except.ok l →
      ∀ a ∈ acts, a.state = AState.PENDING → ∃ c, allDone p a.after = Except.ok c := by
  intro acts
  induction acts with
  | nil =>
    intro l h a ha
    cases ha
  | cons x rest ih =>
    intro l h a ha hpend
    rw [runnableAux] at h
    by_cases hx : x.state ≠ AState.PENDING
    · rw [if_pos hx] at h
      rcases List.mem_cons.mp ha with rfl | ha2
      · exact absurd hpend hx
      · exact ih l h a ha2 hpend
    · rw [if_neg hx] at h
      rcases h1 : allDone p x.after with e | c
      · simp only [h1] at h
        cases h
      · simp only [h1] at h
        rcases h2 : runnableAux p rest with e | rv
        · simp only [h2] at h
          cases h
        · rcases List.mem_cons.mp ha with rfl | ha2
          · exact ⟨c, h1⟩
          · exact ih rv h2 a ha2 hpend

/-- At quiescence (`runnable` returned the empty list) with no FAILED
action, every PENDING action has a PENDING precondition. -/
theorem pending_successor (q : Plan)
    (hterm : q.runnable = Except.ok [])
    (hnf : ∀ a ∈ q.actions, a.state ≠ AState.FAILED)
    (a : ActionS) (ha : a ∈ q.actions) (hpend : a.state = AState.PENDING) :
    ∃ n ∈ a.after, ∃ c, lookupAct q n = some c ∧ c.state = AState.PENDING := by
  obtain ⟨cflag, hAD⟩ := runnable_ok_allDone q q.actions [] hterm a ha hpend
  have hmem := runnableAux_mem q q.actions [] hterm a
  have hnotmem : ¬ (a ∈ q.actions ∧ a.state = AState.PENDING ∧
      ∀ n ∈ a.after, stateOf q n = some AState.DONE) := by
    rw [← hmem]
    simp
  push_neg at hnotmem
  obtain ⟨n, hn, hnot⟩ := hnotmem ha hpend
  obtain ⟨c, hc⟩ := allDone_ok_lookups q a.after cflag hAD n hn
  refine ⟨n, hn, c, hc, ?_⟩
  have hcmem : c ∈ q.actions := lookupAct_mem q n c hc
  have hcnf := hnf c hcmem
  have hcs : stateOf q n = some c.state := by
    rw [stateOf, hc]
    rfl
  rcases h2 : c.state with _ | _ | _
  · rfl
  · exact absurd (by rw [hcs, h2]) hnot
  · exact absurd h2 hcnf

/-- At quiescence with no FAILED action and dict-unique names, a PENDING
action starts an arbitrarily long chain of PENDING actions, each a
precondition of the previous one. -/
theorem pending_chain (q : Plan)
    (hterm : q.runnable = Except.ok [])
    (hnf : ∀ a ∈ q.actions, a.state ≠ AState.FAILED)
    (hnodup : (q.actions.map ActionS.name).Nodup)
    (a0 : ActionS) (ha0 : a0 ∈ q.actions) (hp0 : a0.state = AState.PENDING) :
    ∀ k, ∃ f : Nat → String,
      (∀ i ≤ k, ∃ b, lookupAct q (f i) = some b ∧ b.state = AState.PENDING) ∧
      (∀ i < k, ∃ b, lookupAct q (f i) = some b ∧ f (i + 1) ∈ b.after) := by
  intro k
  induction k with
  | zero =>
    refine ⟨fun _ => a0.name, fun i _ => ⟨a0, ?_, hp0⟩, fun i hi => absurd hi (by omega)⟩
    exact find?_name_self q.actions a0 ha0 hnodup
  | succ k ihk =>
    obtain ⟨f, hstate, hedge⟩ := ihk
    obtain ⟨bk, hbk, hbkp⟩ := hstate k (Nat.le_refl k)
    obtain ⟨n, hn, c, hc, hcp⟩ :=
      pending_successor q hterm hnf bk (lookupAct_mem q (f k) bk hbk) hbkp
    refine ⟨fun i => if i ≤ k then f i else n, ?_, ?_⟩
    · intro i hi
      by_cases hik : i ≤ k
      · simp only [hik, if_true]
        exact hstate i hik
      · simp only [hik, if_false]
        exact ⟨c, hc, hcp⟩
    · intro i hi
      by_cases hik : i < k
      · simp only [Nat.le_of_lt hik, (by omega : i + 1 ≤ k), if_true]
        exact hedge i hik
      · have hik2 : i = k := by omega
        subst hik2
        simp only [Nat.le_refl i, if_true]
        rw [if_neg (by omega : ¬ (i + 1 ≤ i))]
        exact ⟨bk, hbk, hn⟩

/-- A chain of precondition edges yields a dependency path from any later
chain element back in `PathTo` form. -/
theorem chain_path (q : Plan) (f : Nat → String) (k : Nat)
    (hedge : ∀ i < k, ∃ b, lookupAct q (f i) = some b ∧ f (i + 1) ∈ b.after) :
    ∀ d m, m + d ≤ k → PathTo q (f (m + d)) (f m) := by
  intro d
  induction d with
  | zero => exact fun m _ => PathTo.refl
  | succ d ih =>
    intro m h
    obtain ⟨b, hb, hmem⟩ := hedge m (by omega)
    have hp : PathTo q (f (m + (d + 1))) (f (m + 1)) := by
      have h2 := ih (m + 1) (by omega)
      rw [show m + 1 + d = m + (d + 1) from by omega] at h2
      exact h2
    exact PathTo.step hb hmem hp

/-- A repeated name on a precondition chain contradicts acyclicity. -/
theorem chain_repeat_false (q : Plan)
    (hnc : ∀ a ∈ q.actions, ∀ n ∈ a.after, ¬ PathTo q a.name n)
    (f : Nat → String) (k : Nat)
    (hedge : ∀ i < k, ∃ b, lookupAct q (f i) = some b ∧ f (i + 1) ∈ b.after)
    (i j : Nat) (hij : i < j) (hjk : j ≤ k) (hfij : f i = f j) : False := by
  obtain ⟨b, hb, hmem⟩ := hedge i (by omega)
  have hpath : PathTo q (f j) (f (i + 1)) := by
    have h2 := chain_path q f k hedge (j - (i + 1)) (i + 1) (by omega)
    rw [show i + 1 + (j - (i + 1)) = j from by omega] at h2
    exact h2
  have hbmem := lookupAct_mem q (f i) b hb
  have hbname := lookupAct_name q (f i) b hb
  apply hnc b hbmem (f (i + 1)) hmem
  rw [hbname, hfij]
  exact hpath

/-- The heart of C1: in an acyclic plan at quiescence, if no action is
FAILED then every action is DONE (pigeonhole along PENDING chains). -/
theorem no_cycle_terminal_all_done (q : Plan)
    (hnc : ∀ a ∈ q.actions, ∀ n ∈ a.after, ¬ PathTo q a.name n)
    (hterm : q.runnable = Except.ok [])
    (hnodup : (q.actions.map ActionS.name).Nodup)
    (hnf : ∀ a ∈ q.actions, a.state ≠ AState.FAILED) :
    ∀ a ∈ q.actions, a.state = AState.DONE := by
  intro a ha
  by_contra hnd
  have hpend : a.state = AState.PENDING := by
    rcases h : a.state with _ | _ | _
    · rfl
    · exact absurd h hnd
    · exact absurd h (hnf a ha)
  set t : Finset String := (q.actions.map ActionS.name).toFinset with ht
  obtain ⟨f, hstate, hedge⟩ := pending_chain q hterm hnf hnodup a ha hpend t.card
  have hmapsto : ∀ i ∈ Finset.range (t.card + 1), f i ∈ t := by
    intro i hi
    rw [Finset.mem_range] at hi
    obtain ⟨b, hb, -⟩ := hstate i (by omega)
    have hbn := lookupAct_name q (f i) b hb
    have hbm := lookupAct_mem q (f i) b hb
    rw [ht, List.mem_toFinset, ← hbn]
    exact List.mem_map_of_mem _ hbm
  have hcard : t.card < (Finset.range (t.card + 1)).card := by
    rw [Finset.card_range]
    omega
  obtain ⟨i, hi, j, hj, hij, hfij⟩ :=
    Finset.exists_ne_map_eq_of_card_lt_of_maps_to hcard hmapsto
  rw [Finset.mem_range] at hi hj
  rcases Nat.lt_or_ge i j with hlt | hge
  · exact chain_repeat_false q hnc f t.card hedge i j hlt (by omega) hfij
  · have hlt : j < i := by omega
    exact chain_repeat_false q hnc f t.card hedge j i hlt (by omega) hfij.symm

/-- C1: when `Plan.run` terminates normally — it validated the plan, ran
the loop to quiescence and was not interrupted — on a plan with
dict-unique action names, the returned boolean is True exactly when every
action is DONE at termination, and False exactly when at least one action
is FAILED once nothing is eligible any longer. -/
theorem run_reports_success (fuel : Nat) (p q : Plan) (b : Bool)
    (hnodup : (p.actions.map ActionS.name).Nodup)
    (h : Runs fuel p q (RunResult.completed b)) :
    (b = true ↔ ∀ a ∈ q.actions, a.state = AState.DONE) ∧
    (b = false ↔ ∃ a ∈ q.actions, a.state = AState.FAILED) := by
  cases h with
  | completed hwf hex hterm =>
    have hany : q.any_failed = true ↔ ∃ a ∈ q.actions, a.state = AState.FAILED := by
      rw [Plan.any_failed, List.any_eq_true]
      simp
    have hs : p.actions.map (fun a => (a.name, a.after)) =
        q.actions.map (fun a => (a.name, a.after)) :=
      (reset_failed_sameStruct p).trans (exec_sameStruct p.reset_failed q hex)
    have hnodupq : (q.actions.map ActionS.name).Nodup := by
      rw [← names_of_sameStruct p.actions q.actions hs]
      exact hnodup
    have hncp : ∀ a ∈ p.actions, ∀ n ∈ a.after, ¬ PathTo p a.name n := by
      intro a ha n hn hpath
      have hfalse := wellFormedGo_true fuel p p.actions
        (by rw [Plan.well_formed] at hwf; exact hwf) a ha
      cases fuel with
      | zero =>
        rcases hA : a.after with _ | ⟨y, ys⟩
        · rw [hA] at hn
          cases hn
        · rw [hA] at hfalse
          rw [circularF] at hfalse
          cases hfalse
      | succ f => exact circularF_false_no_path p a.name n hpath f a.after hn hfalse
    have hncq : ∀ a ∈ q.actions, ∀ n ∈ a.after, ¬ PathTo q a.name n := by
      intro a2 ha2 n hn hpath
      have hmem : (a2.name, a2.after) ∈ p.actions.map (fun a => (a.name, a.after)) := by
        rw [hs]
        exact List.mem_map_of_mem _ ha2
      obtain ⟨a, ha, heq⟩ := List.mem_map.mp hmem
      rw [Prod.mk.injEq] at heq
      obtain ⟨hn1, hn2⟩ := heq
      have hpq := pathTo_of_sameStruct q p hs.symm a2.name n hpath
      apply hncp a ha n (by rw [hn2]; exact hn)
      rw [hn1]
      exact hpq
    constructor
    · constructor
      · intro hb
        have hnf : ∀ a ∈ q.actions, a.state ≠ AState.FAILED := by
          intro a ha hcon
          have hq : q.any_failed = true := hany.mpr ⟨a, ha, hcon⟩
          rw [hq] at hb
          cases hb
        exact no_cycle_terminal_all_done q hncq hterm hnodupq hnf
      · intro hall
        have hq : q.any_failed = false := by
          by_contra hcon
          rw [Bool.not_eq_false] at hcon
          obtain ⟨a, ha, hfa⟩ := hany.mp hcon
          rw [hall a ha] at hfa
          cases hfa
        rw [hq]
        rfl
    · simpa using hany

/-- Witness for C1 at a concrete plan: a single-action plan whose action
is already DONE completes with True, and the characterization holds. -/
theorem run_reports_success_witness :
    ((donePlan.actions.map ActionS.name).Nodup ∧
      Runs 1 donePlan donePlan (RunResult.completed true)) ∧
    ((true = true ↔ ∀ a ∈ donePlan.actions, a.state = AState.DONE) ∧
      (true = false ↔ ∃ a ∈ donePlan.actions, a.state = AState.FAILED)) := by
  have hr : Runs 1 donePlan donePlan (RunResult.completed true) :=
    Runs.completed (by decide) Relation.ReflTransGen.refl (by decide)
  exact ⟨⟨by decide, hr⟩, run_reports_success 1 donePlan donePlan true (by decide) hr⟩
